import Mathlib

/-!
Verification of the `cell_utils` repository: a shallow embedding of its two
source files and proofs of the specified properties.

The repository has two components:

* `with_cell/src/lib.rs`: `WithCell<T>`, an interior-mutability container with
  a thread-local borrow stack (`BORROW_STACK`, a linked list of `BorrowEntry`
  records holding cell addresses).  `with` pushes the cell's address, runs a
  callback with a plain reference to the interior, and pops via an `OnDrop`
  guard on every exit path.  `replace`/`set`/`swap` first walk the stack and
  panic (`assert_ne!`) if the cell's address appears on it.

* `src/lib.rs`: `array_of_cells` (layout reinterpretation of `&Cell<[T; N]>`
  as `&[Cell<T>; N]`), the `project!` macro (field/tuple/index projection of a
  `&Cell` by address computation), and `ReadOnlyCell<T>` (a view exposing only
  `get`).

We model a single execution context (thread).  Cells are identified by their
addresses (`Nat`); the heap maps addresses to values; the borrow stack is a
`List Nat` whose head is the most recently pushed entry, mirroring the
intrusive linked list in the source (head pointer in `BORROW_STACK`, each
entry linking to the next-outer one).  A Rust panic is modelled with `Except`:
`Except.error` carries the state at the moment of the panic, since an
unwinding panic leaves already-performed heap writes in place.
-/

/-- State of one execution context: the heap of `WithCell` interiors, indexed
by cell address, and the thread-local borrow stack (head = top). -/
structure WCState (α : Type) where
  heap : Nat → α
  stack : List Nat

/-- Pointwise heap update, modelling a write to the storage at address `a`. -/
def writeHeap {α : Type} (h : Nat → α) (a : Nat) (v : α) : Nat → α :=
  fun x => if x = a then v else h x

/-- The loop of `WithCell::assert_not_borrowed`: walk the borrow stack from
the head, following `next` links, comparing each `cell_address` against the
cell's own address.  The source's `assert_ne!` panics exactly when a match is
found, so the function returns `true` iff the assertion would panic. -/
def isBorrowed : List Nat → Nat → Bool
  | [], _ => false
  | e :: rest, a => if e = a then true else isBorrowed rest a

namespace WithCell

/-- `WithCell::replace`: first `assert_not_borrowed` (panic leaves the heap
untouched, since the assertion precedes the write in the source), then
`mem::replace` the interior with `t`, returning the old value. -/
def replace {α : Type} (st : WCState α) (c : Nat) (v : α) :
    Except (WCState α) (α × WCState α) :=
  if isBorrowed st.stack c then Except.error st
  else Except.ok (st.heap c, ⟨writeHeap st.heap c v, st.stack⟩)

/-- `WithCell::set`: `replace` discarding the returned old value. -/
def set {α : Type} (st : WCState α) (c : Nat) (v : α) :
    Except (WCState α) (WCState α) :=
  (replace st c v).map Prod.snd

/-- `WithCell::swap`: if the two references are pointer-equal (`ptr::eq`),
return immediately; otherwise `assert_not_borrowed` on `self`, then on
`other` (each panic leaves the heap untouched, as both assertions precede the
write), then `mem::swap` the two interiors. -/
def swap {α : Type} (st : WCState α) (a b : Nat) :
    Except (WCState α) (WCState α) :=
  if a = b then Except.ok st
  else if isBorrowed st.stack a then Except.error st
  else if isBorrowed st.stack b then Except.error st
  else Except.ok ⟨writeHeap (writeHeap st.heap a (st.heap b)) b (st.heap a), st.stack⟩

/-- `WithCell::get` (for `T : Copy`): read the interior value directly.  The
source performs no borrow-stack check of any kind. -/
def get {α : Type} (st : WCState α) (c : Nat) : α :=
  st.heap c

/-- `WithCell::with`: save the current stack head (`previous_head`), push a
new `BorrowEntry` with this cell's address linking to it, run the callback on
a plain reference to the interior, and restore the saved head via the
`OnDrop` guard — on the normal return path and on the unwinding (panic) path
alike.  The callback `f` receives the interior value and the state, and
returns its result (or a panic) together with the state it leaves behind;
the panic propagates after the stack is restored. -/
def «with» {α β : Type} (st : WCState α) (c : Nat)
    (f : α → WCState α → Except Unit β × WCState α) :
    Except Unit β × WCState α :=
  let previous := st.stack
  let pushed : WCState α := ⟨st.heap, c :: previous⟩
  let r := f (pushed.heap c) pushed
  (r.1, ⟨r.2.heap, previous⟩)

end WithCell

/-!
Model of `src/lib.rs`'s `project!` macro.  The macro turns a `&Cell` of a
composite value into a `&Cell` of the sub-object named by a chain of field /
tuple-index selectors: it obtains one raw pointer to the interior
(`cell.as_ptr()`), repeatedly reborrows `&mut reference.$field`, and wraps
the final reference with `Cell::from_mut`.  We model composite values as
finitely branching trees (a struct's or tuple's fields in order; a leaf is a
non-composite scalar), and a selector chain as the list of field positions.
Writing through the projected cell replaces exactly the addressed sub-tree of
the parent's storage; reading through the original cell reads that tree.
-/

/-- A composite value: a scalar leaf or a struct/tuple with an ordered list
of fields. -/
inductive CompVal where
  | leaf : Int → CompVal
  | node : List CompVal → CompVal

/-- Read the sub-object at a selector path, as the original container sees
it.  `none` models a selector chain that does not name a sub-object of the
type — in the source this is rejected at compile time, never at runtime. -/
def readAt : List Nat → CompVal → Option CompVal
  | [], v => some v
  | _ :: _, CompVal.leaf _ => none
  | i :: rest, CompVal.node fs => (fs[i]?).bind (readAt rest)

/-- Write `x` into the sub-object at a selector path: the effect on the
parent's storage of a `set` through `project!`, which stores through the
address of exactly the addressed field. -/
def writeAt : List Nat → CompVal → CompVal → Option CompVal
  | [], _, x => some x
  | _ :: _, CompVal.leaf _, _ => none
  | i :: rest, CompVal.node fs, x =>
    (fs[i]?).bind fun f =>
      (writeAt rest f x).map fun f2 => CompVal.node (fs.set i f2)

/-- Two selector paths address disjoint storage: at the first position where
they diverge, they select different fields.  (A path and its extension
overlap: the extension's storage lies inside the other's.) -/
def pathDisjoint : List Nat → List Nat → Bool
  | [], _ => false
  | _ :: _, [] => false
  | i :: p, j :: q => if i = j then pathDisjoint p q else true

/-!
Model of `array_of_cells`: the pointer cast from `&Cell<[T; N]>` to
`&[Cell<T>; N]` relabels the array's storage as `N` element cells in place,
so `array_of_cells(c)[i].set(x)` writes element `i` of the underlying array
and `array_of_cells(c)[i].get()` reads it.  We model the array's storage as a
`List Int`.
-/

/-- Effect on the underlying array of `array_of_cells(c)[i].set(x)`: the
element cell occupies exactly element `i`'s storage. -/
def cellArraySet (a : List Int) (i : Nat) (x : Int) : List Int :=
  a.set i x

/-- `array_of_cells(c)[i].get()`: read element `i`'s storage (`none` models
an out-of-bounds index, rejected before any access). -/
def cellArrayGet (a : List Int) (i : Nat) : Option Int :=
  a[i]?

/-!
Memory identity (claim C7).  `array_of_cells` is `cell as *const Cell<[T; N]>
as *const [Cell<T>; N]` — the address is unchanged — and `Cell<T>` is
`repr(transparent)`, so `size_of::<Cell<T>>() = size_of::<T>()` and indexing
the cast array steps in strides of `size_of::<T>()`.  That is one side of the
claimed identity.  The other side, `project(c, i)` on a cell wrapping a
fixed-size array, does not exist in the source: `project!`'s selectors are
`$(. $field:tt)*` — dot-separated field / tuple-index tokens — and each one
expands to `&mut reference.$field`, a field access.  The macro contains no
`[i]` indexing step, and field access does not elaborate on an array type
(`reference.0` on a `&mut [T; N]` is a type error), so `project!` applied to
a cell-of-array fails to compile for every selector chain.  We model the
address chain of the side that exists, and the per-step elaboration of the
macro's expansion on the relevant types, to settle the claim.
-/

/-- Size of `Cell<T>` given the size of `T`: equal, by `repr(transparent)`. -/
def sizeOfCell (sizeOfT : Nat) : Nat := sizeOfT

/-- Address produced by the `array_of_cells` pointer cast: the input cell's
own address. -/
def arrayOfCellsAddr (cellAddr : Nat) : Nat := cellAddr

/-- Address of element `i` of an array whose storage starts at `base` with
the given element size. -/
def indexAddr (base elemSize i : Nat) : Nat := base + i * elemSize

/-- Address of `array_of_cells(c)[i]`: cast the cell, then index by strides
of `size_of::<Cell<T>>()`. -/
def reinterpretArrayElemAddr (cellAddr sizeOfT i : Nat) : Nat :=
  indexAddr (arrayOfCellsAddr cellAddr) (sizeOfCell sizeOfT) i

/-- The shapes of Rust types `project!`'s expansion can meet: a non-composite
scalar, a fixed-size array `[T; N]`, or a struct / tuple with its fields in
declaration order (selectors are modelled by field position, as in `CompVal`). -/
inductive RTy where
  | scalar : RTy
  | array : RTy → Nat → RTy
  | tuple : List RTy → RTy

/-- Elaboration of one `. $field` step of the `project!` expansion,
`&mut reference.$field`, at the type level: on a struct or tuple the access
names field `i` and has that field's type; on an array or a scalar there is
no dot-accessible field `i` and the expansion fails to type-check (`none`). -/
def fieldAccessTy : RTy → Nat → Option RTy
  | RTy.tuple fs, i => fs[i]?
  | RTy.array _ _, _ => none
  | RTy.scalar, _ => none

/-- Elaboration of a whole `project!` selector chain: the chain of field
accesses the macro expands to, applied left to right; `some` is the projected
cell's interior type, `none` a compile error. -/
def projectTy : RTy → List Nat → Option RTy
  | t, [] => some t
  | t, i :: p => (fieldAccessTy t i).bind fun u => projectTy u p

/-!
Model of `ReadOnlyCell<T>` (claim C8).  Its whole interface, from the two
`impl` blocks in the source: the constructors `new`, `from_ref`,
`from_cell_ref`, and — the only method available through a view reference —
`get`, which copies the value out.  `Cell<T>`'s interface additionally has
`set`, `replace` and friends.  We enumerate the methods callable through each
kind of reference and give each its semantics as a state transformer on the
underlying value, returning the method's result and the value afterwards.
-/

/-- Methods callable through a `&Cell<T>` (the relevant core ones). -/
inductive CellOp (α : Type) where
  | get : CellOp α
  | set : α → CellOp α
  | replace : α → CellOp α

/-- Semantics of a `Cell` method: (returned value, if any; value afterwards). -/
def CellOp.run {α : Type} : CellOp α → α → Option α × α
  | CellOp.get, v => (some v, v)
  | CellOp.set x, _ => (none, x)
  | CellOp.replace x, v => (some v, x)

/-- Methods callable through a `&ReadOnlyCell<T>`: only `get`.  This inductive
enumerates the source's `impl` blocks; no mutating constructor exists. -/
inductive ROCellOp (α : Type) where
  | get : ROCellOp α

/-- Semantics of a `ReadOnlyCell` method: `get` copies the value out. -/
def ROCellOp.run {α : Type} : ROCellOp α → α → Option α × α
  | ROCellOp.get, v => (some v, v)

/-- The capability injection realized by `ReadOnlyCell::from_cell_ref`: every
view method is one of the cell's own methods. -/
def ROCellOp.toCellOp {α : Type} : ROCellOp α → CellOp α
  | ROCellOp.get => CellOp.get

/-- Run a whole sequence of view methods; returns the final underlying value. -/
def runROCellOps {α : Type} : List (ROCellOp α) → α → α
  | [], v => v
  | op :: ops, v => runROCellOps ops (op.run v).2

/-!  Concrete states and values used by the witness theorems below. -/

/-- A state whose borrow stack holds one entry, for the address 7. -/
def stW : WCState Int := ⟨fun _ => 0, [7]⟩

/-- A state with an empty borrow stack and 42 in every cell. -/
def stN : WCState Int := ⟨fun _ => 42, []⟩

/-- A two-field struct value. -/
def vW : CompVal := CompVal.node [CompVal.leaf 1, CompVal.leaf 2]

/-- `vW` after writing 9 through the projection of its first field. -/
def vW2 : CompVal := CompVal.node [CompVal.leaf 9, CompVal.leaf 2]

/-!  Theorems. -/

/-- Membership on the stack is what `isBorrowed` computes. -/
theorem isBorrowed_eq_mem (s : List Nat) (a : Nat) :
    isBorrowed s a = true ↔ a ∈ s := by
  induction s with
  | nil => simp [isBorrowed]
  | cons e rest ih =>
    by_cases h : e = a
    · simp [isBorrowed, h]
    · simp only [isBorrowed, h, if_false, ih, List.mem_cons]
      constructor
      · exact Or.inr
      · intro hc
        rcases hc with hc | hc
        · exact absurd hc.symm h
        · exact hc


/-- C1: `replace(c, v)` (and hence `set`) panics with the contract violation
iff `c`'s address appears somewhere on the current context's borrow stack;
when it does not, `replace` stores `v` into `c`'s storage and returns the
previous interior value (and `set` just stores). -/
theorem replace_violation_iff {α : Type} (st : WCState α) (c : Nat) (v : α) :
    ((∃ s, WithCell.replace st c v = Except.error s) ↔ c ∈ st.stack) ∧
    (c ∉ st.stack →
      WithCell.replace st c v
        = Except.ok (st.heap c, ⟨writeHeap st.heap c v, st.stack⟩) ∧
      WithCell.set st c v = Except.ok ⟨writeHeap st.heap c v, st.stack⟩) := by
  by_cases hb : isBorrowed st.stack c = true
  · have hmem : c ∈ st.stack := (isBorrowed_eq_mem st.stack c).1 hb
    refine ⟨⟨fun _ => hmem, fun _ => ⟨st, ?_⟩⟩, fun hnot => absurd hmem hnot⟩
    simp [WithCell.replace, hb]
  · have hmem : c ∉ st.stack := fun h =>
      hb ((isBorrowed_eq_mem st.stack c).2 h)
    refine ⟨⟨?_, fun h => absurd h hmem⟩, fun _ => ?_⟩
    · rintro ⟨s, hs⟩
      simp [WithCell.replace, Bool.eq_false_iff.2 hb] at hs
    · constructor
      · simp [WithCell.replace, Bool.eq_false_iff.2 hb]
      · simp [WithCell.set, WithCell.replace, Bool.eq_false_iff.2 hb, Except.map]

/-- Witness for `replace_violation_iff`: with stack `[7]`, replacing through
the unborrowed address 3 succeeds and returns the old value 0. -/
theorem replace_violation_iff_witness :
    (3 : Nat) ∉ stW.stack ∧
    (WithCell.replace stW 3 9
       = Except.ok (stW.heap 3, ⟨writeHeap stW.heap 3 9, stW.stack⟩) ∧
     WithCell.set stW 3 9 = Except.ok ⟨writeHeap stW.heap 3 9, stW.stack⟩) :=
  ⟨by decide, (replace_violation_iff stW 3 9).2 (by decide)⟩

/-- C2: `with(c, f)` returns exactly the callback's outcome — its value on
normal return, its panic on unwind — computed on the state with `c`'s entry
pushed; and on either exit path the borrow stack afterwards is exactly the
stack from before the call, while the heap is whatever the callback left. -/
theorem with_returns_f_and_restores_stack {α β : Type} (st : WCState α) (c : Nat)
    (f : α → WCState α → Except Unit β × WCState α) :
    (WithCell.«with» st c f).1 = (f (st.heap c) ⟨st.heap, c :: st.stack⟩).1 ∧
    (WithCell.«with» st c f).2.stack = st.stack ∧
    (WithCell.«with» st c f).2.heap
      = (f (st.heap c) ⟨st.heap, c :: st.stack⟩).2.heap :=
  ⟨rfl, rfl, rfl⟩

/-- Counterexample to C3: calling `with(c, g)` from inside `with(c, f)`'s
callback is NOT a contract violation — `with` never consults the borrow
stack.  The nested scope on the same cell succeeds and yields the interior
value 42 instead of panicking. -/
theorem with_reentrant_counterexample :
    (WithCell.«with» stN 0 (fun _ st1 =>
        WithCell.«with» st1 0 (fun a st2 => (Except.ok a, st2)))).1 = Except.ok 42 ∧
    (WithCell.«with» stN 0 (fun _ st1 =>
        WithCell.«with» st1 0 (fun a st2 => (Except.ok a, st2)))).1
      ≠ Except.error () :=
  ⟨rfl, fun h => nomatch h⟩

/-- C4: `swap(c, c)` — both arguments the same container instance — never
triggers a violation, even with a scope on `c` open, and leaves everything
unchanged (the `ptr::eq` branch returns before any check or write); for
distinct containers, `swap(a, b)` panics iff either address is on the borrow
stack, and otherwise exchanges the two interior values, touching no other
cell. -/
theorem swap_spec {α : Type} (st : WCState α) (a b : Nat) :
    WithCell.swap st a a = Except.ok st ∧
    (a ≠ b →
      ((∃ s, WithCell.swap st a b = Except.error s)
        ↔ (a ∈ st.stack ∨ b ∈ st.stack)) ∧
      (a ∉ st.stack → b ∉ st.stack →
        ∃ st2, WithCell.swap st a b = Except.ok st2 ∧
          st2.heap a = st.heap b ∧ st2.heap b = st.heap a ∧
          (∀ x, x ≠ a → x ≠ b → st2.heap x = st.heap x) ∧
          st2.stack = st.stack)) := by
  constructor
  · simp [WithCell.swap]
  · intro hab
    by_cases hba : isBorrowed st.stack a = true
    · have hma : a ∈ st.stack := (isBorrowed_eq_mem st.stack a).1 hba
      refine ⟨⟨fun _ => Or.inl hma, fun _ => ⟨st, ?_⟩⟩,
        fun hna _ => absurd hma hna⟩
      simp [WithCell.swap, hab, hba]
    · have hma : a ∉ st.stack := fun h => hba ((isBorrowed_eq_mem st.stack a).2 h)
      by_cases hbb : isBorrowed st.stack b = true
      · have hmb : b ∈ st.stack := (isBorrowed_eq_mem st.stack b).1 hbb
        refine ⟨⟨fun _ => Or.inr hmb, fun _ => ⟨st, ?_⟩⟩,
          fun _ hnb => absurd hmb hnb⟩
        simp [WithCell.swap, hab, Bool.eq_false_iff.2 hba, hbb]
      · have hmb : b ∉ st.stack := fun h => hbb ((isBorrowed_eq_mem st.stack b).2 h)
        have hok : WithCell.swap st a b = Except.ok
            ⟨writeHeap (writeHeap st.heap a (st.heap b)) b (st.heap a), st.stack⟩ := by
          simp [WithCell.swap, hab, Bool.eq_false_iff.2 hba, Bool.eq_false_iff.2 hbb]
        refine ⟨⟨?_, fun hmem => ?_⟩, fun _ _ => ⟨_, hok, ?_, ?_, ?_, rfl⟩⟩
        · rintro ⟨s, hs⟩
          rw [hok] at hs
          exact absurd hs (by simp)
        · rcases hmem with h | h
          · exact absurd h hma
          · exact absurd h hmb
        · simp [writeHeap, hab]
        · simp [writeHeap]
        · intro x hxa hxb
          simp [writeHeap, hxa, hxb]

/-- Witness for `swap_spec`: with stack `[7]`, swapping the distinct
unborrowed cells 1 and 2 succeeds and exchanges exactly their two values. -/
theorem swap_spec_witness :
    ((1 : Nat) ≠ 2 ∧ (1 : Nat) ∉ stW.stack ∧ (2 : Nat) ∉ stW.stack) ∧
    (∃ st2, WithCell.swap stW 1 2 = Except.ok st2 ∧
      st2.heap 1 = stW.heap 2 ∧ st2.heap 2 = stW.heap 1 ∧
      (∀ x, x ≠ 1 → x ≠ 2 → st2.heap x = stW.heap x) ∧
      st2.stack = stW.stack) :=
  ⟨⟨by decide, by decide, by decide⟩,
    ((swap_spec stW 1 2).2 (by decide)).2 (by decide) (by decide)⟩

/-- C3 amended: `with` pushes unconditionally, so re-entrantly scoping the
same container is permitted: the inner callback runs (observing `c`'s entry
on the stack twice), its value is returned, and the stack is restored on
exit.  Only the mutating operations (`replace`/`set`/`swap`) check the stack
and report violations. -/
theorem with_reentrant_ok {α : Type} (st : WCState α) (c : Nat) :
    (WithCell.«with» st c (fun _ st1 =>
        WithCell.«with» st1 c (fun _ st2 => (Except.ok st2.stack, st2)))).1
      = Except.ok (c :: c :: st.stack) ∧
    (WithCell.«with» st c (fun _ st1 =>
        WithCell.«with» st1 c (fun _ st2 => (Except.ok st2.stack, st2)))).2.stack
      = st.stack :=
  ⟨rfl, rfl⟩

/-- C9: `get` never consults the borrow stack and never panics: it returns
the current interior value for every state, its result does not depend on the
stack at all, and calling it from inside `with(c, ...)`'s own callback
succeeds and yields the interior value. -/
theorem get_ignores_stack {α : Type} (st : WCState α) (c : Nat) (s2 : List Nat) :
    WithCell.get st c = st.heap c ∧
    WithCell.get ⟨st.heap, s2⟩ c = WithCell.get st c ∧
    (WithCell.«with» st c
        (fun _ st1 => (Except.ok (WithCell.get st1 c), st1))).1
      = Except.ok (st.heap c) :=
  ⟨rfl, rfl, rfl⟩

/-- C10: a refused mutation has no effect at all: whenever `replace`, `set`
or `swap` panics with the contract violation, the state at the panic — heap
and stack alike — is exactly the pre-call state, because every
`assert_not_borrowed` walk completes before the first write. -/
theorem refused_mutation_atomic {α : Type} (st s1 s2 s3 : WCState α)
    (c a b : Nat) (v : α) :
    (WithCell.replace st c v = Except.error s1 → s1 = st) ∧
    (WithCell.set st c v = Except.error s2 → s2 = st) ∧
    (WithCell.swap st a b = Except.error s3 → s3 = st) := by
  refine ⟨fun h => ?_, fun h => ?_, fun h => ?_⟩
  · by_cases hb : isBorrowed st.stack c = true
    · simp [WithCell.replace, hb] at h
      exact h.symm
    · simp [WithCell.replace, Bool.eq_false_iff.2 hb] at h
  · by_cases hb : isBorrowed st.stack c = true
    · simp [WithCell.set, WithCell.replace, hb, Except.map] at h
      exact h.symm
    · simp [WithCell.set, WithCell.replace, Bool.eq_false_iff.2 hb,
        Except.map] at h
  · by_cases hab : a = b
    · simp [WithCell.swap, hab] at h
    · by_cases hba : isBorrowed st.stack a = true
      · simp [WithCell.swap, hab, hba] at h
        exact h.symm
      · by_cases hbb : isBorrowed st.stack b = true
        · simp [WithCell.swap, hab, Bool.eq_false_iff.2 hba, hbb] at h
          exact h.symm
        · simp [WithCell.swap, hab, Bool.eq_false_iff.2 hba,
            Bool.eq_false_iff.2 hbb] at h

/-- Writing through a projection and reading back through the parent at the
same selector path yields exactly the written value. -/
theorem readAt_writeAt_self (p : List Nat) (x : CompVal) :
    ∀ v v' : CompVal, writeAt p v x = some v' → readAt p v' = some x := by
  induction p with
  | nil =>
    intro v v' h
    simp only [writeAt, Option.some.injEq] at h
    subst h
    rfl
  | cons i rest ih =>
    intro v v' h
    cases v with
    | leaf n => simp [writeAt] at h
    | node fs =>
      simp only [writeAt] at h
      cases hfi : fs[i]? with
      | none => rw [hfi] at h; simp at h
      | some f =>
        rw [hfi, Option.some_bind] at h
        cases hw : writeAt rest f x with
        | none => rw [hw] at h; simp at h
        | some f2 =>
          rw [hw] at h
          simp only [Option.map_some', Option.some.injEq] at h
          subst h
          obtain ⟨hlen, -⟩ := List.getElem?_eq_some_iff.1 hfi
          simp only [readAt, List.getElem?_set_self hlen, Option.some_bind]
          exact ih f f2 hw

/-- Writing through a projection leaves the value at every disjoint selector
path unchanged. -/
theorem readAt_writeAt_disjoint (p : List Nat) (x : CompVal) :
    ∀ (q : List Nat) (v v' : CompVal), writeAt p v x = some v' →
      pathDisjoint p q = true → readAt q v' = readAt q v := by
  induction p with
  | nil =>
    intro q v v' _ hd
    simp [pathDisjoint] at hd
  | cons i rest ih =>
    intro q v v' h hd
    cases q with
    | nil => simp [pathDisjoint] at hd
    | cons j qrest =>
      cases v with
      | leaf n => simp [writeAt] at h
      | node fs =>
        simp only [writeAt] at h
        cases hfi : fs[i]? with
        | none => rw [hfi] at h; simp at h
        | some f =>
          rw [hfi, Option.some_bind] at h
          cases hw : writeAt rest f x with
          | none => rw [hw] at h; simp at h
          | some f2 =>
            rw [hw] at h
            simp only [Option.map_some', Option.some.injEq] at h
            subst h
            by_cases hij : i = j
            · subst hij
              obtain ⟨hlen, -⟩ := List.getElem?_eq_some_iff.1 hfi
              simp only [pathDisjoint, if_pos rfl] at hd
              simp only [readAt, List.getElem?_set_self hlen, hfi,
                Option.some_bind]
              exact ih qrest f f2 hw hd
            · simp only [readAt, List.getElem?_set_ne hij]

/-- C5: for every composite value in a cell and every valid selector path
`p`, writing `x` through `project!` at `p` and then reading through the
original cell observes exactly `x` at `p`, and the sub-object at every
disjoint selector path (in particular, every other field) is unchanged. -/
theorem project_write_read (p q : List Nat) (v v' x : CompVal)
    (hw : writeAt p v x = some v') :
    readAt p v' = some x ∧
    (pathDisjoint p q = true → readAt q v' = readAt q v) :=
  ⟨readAt_writeAt_self p x v v' hw,
    fun hd => readAt_writeAt_disjoint p x q v v' hw hd⟩

/-- C6: for a cell wrapping a fixed-size array, setting element `i` through
the array-of-cells view and reading it back through the same view yields the
written value, and every element at an index `j ≠ i` is unchanged. -/
theorem array_of_cells_set_get (a : List Int) (i : Nat) (x : Int)
    (h : i < a.length) :
    cellArrayGet (cellArraySet a i x) i = some x ∧
    ∀ j, j ≠ i → cellArrayGet (cellArraySet a i x) j = cellArrayGet a j := by
  constructor
  · simpa [cellArrayGet, cellArraySet] using List.getElem?_set_self h
  · intro j hj
    simp [cellArrayGet, cellArraySet, List.getElem?_set_ne (Ne.symm hj)]

/-- Witness for `array_of_cells_set_get` on the array `[1, 2, 3]` at index
0, matching the crate's own doctest. -/
theorem array_of_cells_set_get_witness :
    0 < [1, 2, 3].length ∧
    (cellArrayGet (cellArraySet [1, 2, 3] 0 99) 0 = some 99 ∧
     ∀ j, j ≠ 0 → cellArrayGet (cellArraySet [1, 2, 3] 0 99) j
       = cellArrayGet [1, 2, 3] j) :=
  ⟨by decide, array_of_cells_set_get [1, 2, 3] 0 99 (by decide)⟩

/-- Counterexample to C7: the claim compares `reinterpret_array(c)[i]` with
`project(c, i)`, but the latter container does not exist.  At the concrete
input `c : Cell<[i32; 3]>` with the in-bounds index `i = 0`, the selector
step of `project!`'s expansion fails to elaborate — an array type has no
dot-accessible field — so no selector chain of the macro produces a container
for element 0, and the claimed memory identity has nothing to be compared
with. -/
theorem reinterpret_project_counterexample :
    fieldAccessTy (RTy.array RTy.scalar 3) 0 = none ∧
    projectTy (RTy.array RTy.scalar 3) [0] = none ∧
    (0 : Nat) < 3 :=
  ⟨rfl, rfl, by decide⟩

/-- C7 amended: `array_of_cells(c)[i]` denotes element `i`'s storage, at the
cell's own address plus `i` strides of `size_of::<T>()` (every cast in the
chain is address-preserving by `repr(transparent)`); but no container
`project(c, i)` exists to share that identity with — `project!`'s dot
field/tuple selectors do not elaborate on a fixed-size array type, for any
index and any continuation of the selector chain. -/
theorem reinterpret_project_amended (cellAddr sizeOfT i n : Nat) (t : RTy)
    (p : List Nat) :
    reinterpretArrayElemAddr cellAddr sizeOfT i = cellAddr + i * sizeOfT ∧
    fieldAccessTy (RTy.array t n) i = none ∧
    projectTy (RTy.array t n) (i :: p) = none := by
  refine ⟨rfl, rfl, ?_⟩
  simp [projectTy, fieldAccessTy]

/-- C8: a read-only view can never mutate the underlying value: running any
sequence of the view's methods leaves the value unchanged (each single
method, `get`, returns the value and does not write), and the injection into
the cell's method set given by `from_cell_ref` preserves semantics — the view
offers a subset of the cell's capabilities, never more. -/
theorem read_only_view_no_mutation {α : Type} (ops : List (ROCellOp α))
    (v : α) (op : ROCellOp α) :
    runROCellOps ops v = v ∧
    (ROCellOp.run op v).2 = v ∧
    CellOp.run (ROCellOp.toCellOp op) v = ROCellOp.run op v := by
  refine ⟨?_, ?_, ?_⟩
  · induction ops with
    | nil => rfl
    | cons o os ih =>
      cases o
      exact ih
  · cases op
    rfl
  · cases op
    rfl

/-- Witness for `project_write_read`: writing 9 at the first field of a
two-field struct, the first field reads back 9 and the second field is
untouched. -/
theorem project_write_read_witness :
    (writeAt [0] vW (CompVal.leaf 9) = some vW2 ∧
     pathDisjoint [0] [1] = true) ∧
    (readAt [0] vW2 = some (CompVal.leaf 9) ∧
     readAt [1] vW2 = readAt [1] vW) :=
  ⟨⟨rfl, by decide⟩,
    (project_write_read [0] [1] vW vW2 (CompVal.leaf 9) rfl).1,
    (project_write_read [0] [1] vW vW2 (CompVal.leaf 9) rfl).2 (by decide)⟩

/-- Witness for `refused_mutation_atomic`: with stack `[7]`, each of
`replace`, `set` and `swap` on cell 7 panics with the pre-call state. -/
theorem refused_mutation_atomic_witness :
    (WithCell.replace stW 7 9 = Except.error stW ∧
     WithCell.set stW 7 9 = Except.error stW ∧
     WithCell.swap stW 7 3 = Except.error stW) ∧
    (stW = stW ∧ stW = stW ∧ stW = stW) :=
  ⟨⟨rfl, rfl, rfl⟩,
    (refused_mutation_atomic stW stW stW stW 7 7 3 9).1 rfl,
    (refused_mutation_atomic stW stW stW stW 7 7 3 9).2.1 rfl,
    (refused_mutation_atomic stW stW stW stW 7 7 3 9).2.2 rfl⟩
